import Mathlib

/-!
Verification of the autostart launcher core against its specification.

The development is a shallow embedding of the C sources:

* src/src/util.c       : trim, remove_desktop_specifiers
* src/src/config.c     : config_init, config_load, config_find_app,
                         config_dir_allowed
* src/src/autostart.c  : parse_desktop_file, check_tryexec, run_command,
                         scan_autostart_dir (policy gate), launch_queued_apps

C strings are modelled as List Char (a C line never contains an interior
NUL for the inputs considered here).  Files are modelled as the list of
their lines, as produced by fgets; machine ints hold small values in all
claims, so Int is used without wrap-around.
-/

namespace Autostart

/-- Character class used by isspace in the C locale: space, tab, newline,
vertical tab, form feed, carriage return. -/
def isSpaceC (c : Char) : Bool :=
  c = ' ' || c = '\t' || c = '\n' || c = '\x0b' || c = '\x0c' || c = '\r'

/-- Embedding of trim from util.c: drop leading isspace characters, then
drop trailing isspace characters. -/
def trimC (s : List Char) : List Char :=
  (((s.dropWhile isSpaceC).reverse.dropWhile isSpaceC)).reverse

/-- Embedding of remove_desktop_specifiers from util.c: a percent sign
consumes itself and the following character (if any); every other
character is copied verbatim. -/
def remove_desktop_specifiers : List Char → List Char
  | [] => []
  | c :: rest =>
    if c = '%' then
      match rest with
      | [] => []
      | _ :: rest2 => remove_desktop_specifiers rest2
    else c :: remove_desktop_specifiers rest

lemma rds_nil : remove_desktop_specifiers [] = [] := rfl

lemma rds_percent_nil : remove_desktop_specifiers ['%'] = [] := rfl

lemma rds_percent_cons (c : Char) (rest : List Char) :
    remove_desktop_specifiers ('%' :: c :: rest) = remove_desktop_specifiers rest := rfl

lemma rds_cons_of_ne (c : Char) (rest : List Char) (h : c ≠ '%') :
    remove_desktop_specifiers (c :: rest) = c :: remove_desktop_specifiers rest := by
  rw [remove_desktop_specifiers.eq_def]
  simp [h]

lemma rds_no_percent : ∀ s : List Char, '%' ∉ remove_desktop_specifiers s := by
  intro s
  induction s using remove_desktop_specifiers.induct with
  | case1 => simp [remove_desktop_specifiers]
  | case2 => simp [remove_desktop_specifiers]
  | case3 c rest ih =>
    rw [rds_percent_cons]
    exact ih
  | case4 c rest hc ih =>
    rw [rds_cons_of_ne c rest hc]
    intro hmem
    rcases List.mem_cons.mp hmem with h1 | h2
    · exact hc h1.symm
    · exact ih h2

lemma rds_fixed_of_no_percent : ∀ s : List Char, '%' ∉ s →
    remove_desktop_specifiers s = s := by
  intro s
  induction s with
  | nil => intro _; rfl
  | cons c rest ih =>
    intro h
    have hc : c ≠ '%' := fun hcc => h (hcc ▸ List.mem_cons_self c rest)
    have hrest : '%' ∉ rest := fun hm => h (List.mem_cons_of_mem c hm)
    rw [rds_cons_of_ne c rest hc, ih hrest]

/-- C4: the sanitizer scans left to right, a percent sign consumes itself
and the single following character without copying either, regardless of
what that character is; all other characters are copied verbatim; a
trailing lone percent sign is dropped.  The two concrete examples from the
specification are included. -/
theorem c4_sanitizer_behavior :
    (∀ (c : Char) (rest : List Char), c ≠ '%' →
        remove_desktop_specifiers (c :: rest) = c :: remove_desktop_specifiers rest) ∧
    (∀ (c : Char) (rest : List Char),
        remove_desktop_specifiers ('%' :: c :: rest) = remove_desktop_specifiers rest) ∧
    remove_desktop_specifiers ['%'] = [] ∧
    remove_desktop_specifiers "firefox %u --new-window".toList = "firefox  --new-window".toList ∧
    remove_desktop_specifiers "cmd %".toList = "cmd ".toList := by
  refine ⟨fun c rest h => rds_cons_of_ne c rest h, rds_percent_cons, rfl, by decide, by decide⟩

/-- Witness for C4 at concrete inputs discharging the hypothesis of the
first conjunct. -/
theorem c4_sanitizer_behavior_witness :
    remove_desktop_specifiers ['a', '%', 'u'] = ['a'] := by
  have h := c4_sanitizer_behavior.1 'a' ['%', 'u'] (by decide)
  rw [h, c4_sanitizer_behavior.2.1]
  rfl

/-- Result of parsing one desktop entry file, mirroring struct DesktopEntry
of autostart.c.  Fixed char arrays become lists; field widths are kept via
List.take at the assignment sites. -/
structure DesktopEntry where
  name : List Char
  exec : List Char
  tryexec : List Char
  icon : List Char
  path : List Char
  terminal : Bool
  hidden : Bool
  nodisplay : Bool
  valid : Bool
deriving DecidableEq, Repr

/-- Local parser state of parse_desktop_file: the entry being filled plus
the two flags in_desktop_entry and type_is_application. -/
structure PState where
  e : DesktopEntry
  inDE : Bool
  typeApp : Bool
deriving DecidableEq, Repr

def initEntry : DesktopEntry :=
  { name := [], exec := [], tryexec := [], icon := [], path := [],
    terminal := false, hidden := false, nodisplay := false, valid := false }

def initPState : PState := { e := initEntry, inDE := false, typeApp := false }

/-- True when the first list is a prefix of the second, as strncmp with the
length of the first argument would report. -/
def hasPrefixC : List Char → List Char → Bool
  | [], _ => true
  | _ :: _, [] => false
  | n :: ns, h :: hs => n = h && hasPrefixC ns hs

/-- True when the first list occurs contiguously inside the second, as
strstr reports. -/
def hasInfixC (needle : List Char) : List Char → Bool
  | [] => hasPrefixC needle []
  | h :: hs => hasPrefixC needle (h :: hs) || hasInfixC needle hs

/-- The literal the parser looks for with strstr on section lines. -/
def desktopEntrySection : List Char := "[Desktop Entry]".toList

/-- Split at the first equals sign, as strchr does in parse_desktop_file;
none when the line has no equals sign. -/
def splitAtEq : List Char → Option (List Char × List Char)
  | [] => none
  | c :: rest =>
    if c = '=' then some ([], rest)
    else
      match splitAtEq rest with
      | none => none
      | some kv => some (c :: kv.1, kv.2)

/-- Effect of one recognized key/value pair on the parser state; an error
result models the early return 0 when Type is not Application. -/
def applyKV (st : PState) (key val : List Char) : Except PState PState :=
  if key = "Type".toList then
    if val = "Application".toList then Except.ok { st with typeApp := true }
    else Except.error st
  else if key = "Name".toList then
    Except.ok { st with e := { st.e with name := val.take 255 } }
  else if key = "Exec".toList then
    Except.ok { st with e := { st.e with exec := val.take 1023 } }
  else if key = "TryExec".toList then
    Except.ok { st with e := { st.e with tryexec := val.take 255 } }
  else if key = "Path".toList then
    Except.ok { st with e := { st.e with path := val.take 1023 } }
  else if key = "Icon".toList then
    Except.ok { st with e := { st.e with icon := val.take 255 } }
  else if key = "Terminal".toList then
    Except.ok { st with e := { st.e with terminal := val = "true".toList } }
  else if key = "Hidden".toList then
    Except.ok { st with e := { st.e with hidden := val = "true".toList } }
  else if key = "NoDisplay".toList then
    Except.ok { st with e := { st.e with nodisplay := val = "true".toList } }
  else Except.ok st

/-- Body of one iteration of the fgets loop of parse_desktop_file, applied
to the already trimmed line. -/
def processTrimmed : PState → List Char → Except PState PState
  | st, [] => Except.ok st
  | st, c :: cs =>
    if c = '#' then Except.ok st
    else if c = '[' then
      Except.ok { st with inDE := hasInfixC desktopEntrySection (c :: cs) }
    else if st.inDE = false then Except.ok st
    else
      match splitAtEq (c :: cs) with
      | none => Except.ok st
      | some kv => applyKV st (trimC kv.1) (trimC kv.2)

/-- One iteration of the fgets loop of parse_desktop_file. -/
def processLine (st : PState) (line : List Char) : Except PState PState :=
  processTrimmed st (trimC line)

/-- The whole fgets loop; an error result is the early return on a Type
line whose value is not Application, and it carries the state at that
moment (no further lines are processed). -/
def processLines : PState → List (List Char) → Except PState PState
  | st, [] => Except.ok st
  | st, l :: ls =>
    match processLine st l with
    | Except.ok st2 => processLines st2 ls
    | Except.error st2 => Except.error st2

/-- Embedding of parse_desktop_file on the list of lines of the file: the
resulting entry together with the int return value (as a Bool). -/
def parse_desktop_file (lines : List (List Char)) : DesktopEntry × Bool :=
  match processLines initPState lines with
  | Except.error st => (st.e, false)
  | Except.ok st =>
    let v := st.typeApp && !st.e.name.isEmpty && !st.e.exec.isEmpty
    ({ st.e with valid := v }, v)

lemma processLines_cons (st : PState) (l : List Char) (ls : List (List Char)) :
    processLines st (l :: ls) =
      match processLine st l with
      | Except.ok st2 => processLines st2 ls
      | Except.error st2 => Except.error st2 := rfl

/-- C5, universal part: once the parser is inside the Desktop Entry
section, a Type line whose trimmed value differs from Application stops
processing at that line with a failed result, for every remainder of the
file.  The line is given as the literal prefix followed by an already
trimmed value so that the statement covers every such value. -/
lemma type_gate_stops (st : PState) (v : List Char) (rest : List (List Char))
    (hin : st.inDE = true)
    (hline : trimC ("Type=".toList ++ v) = "Type=".toList ++ v)
    (hv : trimC v = v)
    (hne : v ≠ "Application".toList) :
    processLines st (("Type=".toList ++ v) :: rest) = Except.error st := by
  have hline2 : trimC ('T' :: 'y' :: 'p' :: 'e' :: '=' :: v) =
      'T' :: 'y' :: 'p' :: 'e' :: '=' :: v := hline
  show processLines st (('T' :: 'y' :: 'p' :: 'e' :: '=' :: v) :: rest) = Except.error st
  rw [processLines_cons]
  have hpl : processLine st ('T' :: 'y' :: 'p' :: 'e' :: '=' :: v) = Except.error st := by
    unfold processLine
    rw [hline2]
    have hsplit : splitAtEq ('T' :: 'y' :: 'p' :: 'e' :: '=' :: v) =
        some (['T', 'y', 'p', 'e'], v) := by
      simp [splitAtEq]
    simp only [processTrimmed, hin]
    rw [if_neg (show ¬('T' : Char) = '#' by decide),
      if_neg (show ¬('T' : Char) = '[' by decide),
      if_neg (show ¬(true = false) by decide), hsplit]
    show applyKV st (trimC ['T', 'y', 'p', 'e']) (trimC v) = Except.error st
    rw [show trimC ['T', 'y', 'p', 'e'] = ['T', 'y', 'p', 'e'] from by decide, hv]
    unfold applyKV
    rw [if_pos (show (['T', 'y', 'p', 'e'] : List Char) = "Type".toList from rfl), if_neg hne]
  rw [hpl]

def c5Lines : List (List Char) :=
  ["[Desktop Entry]".toList, "Type=Link".toList, "Name=Foo".toList, "Exec=foo".toList]

/-- C5: inside the Desktop Entry section a Type line whose value is not
Application makes the parser fail immediately, ignoring all further lines;
in particular the concrete file with Type equal to Link and valid Name and
Exec lines parses as invalid. -/
theorem c5_type_gate :
    (∀ (st : PState) (v : List Char) (rest : List (List Char)),
        st.inDE = true →
        trimC ("Type=".toList ++ v) = "Type=".toList ++ v →
        trimC v = v →
        v ≠ "Application".toList →
        processLines st (("Type=".toList ++ v) :: rest) = Except.error st) ∧
    (parse_desktop_file c5Lines).2 = false ∧ (parse_desktop_file c5Lines).1.valid = false := by
  refine ⟨type_gate_stops, by decide, by decide⟩

/-- Witness for C5 at a concrete state, value and remainder. -/
theorem c5_type_gate_witness :
    processLines { initPState with inDE := true }
      (("Type=".toList ++ "Link".toList) :: ["Name=Foo".toList]) =
      Except.error { initPState with inDE := true } :=
  c5_type_gate.1 { initPState with inDE := true } "Link".toList ["Name=Foo".toList]
    rfl (by decide) (by decide) (by decide)

/-- When no line of the file opens a section containing the literal
Desktop Entry header, the loop leaves a state with inDE false completely
unchanged. -/
lemma processLines_no_section (lines : List (List Char)) :
    ∀ st : PState, st.inDE = false →
    (∀ l ∈ lines, (trimC l).head? = some '[' →
        hasInfixC desktopEntrySection (trimC l) = false) →
    processLines st lines = Except.ok st := by
  induction lines with
  | nil => intro st _ _; rfl
  | cons l ls ih =>
    intro st hst h
    have hpl : processLine st l = Except.ok st := by
      unfold processLine
      cases hl : trimC l with
      | nil => rfl
      | cons c cs =>
        by_cases hc : c = '#'
        · simp [processTrimmed, hc]
        · by_cases hb : c = '['
          · have hinf := h l (List.mem_cons_self l ls) (by rw [hl, hb]; rfl)
            rw [hl] at hinf
            subst hb
            simp only [processTrimmed, if_neg hc, if_pos rfl, hinf]
            cases st with
            | mk e inDE typeApp =>
              simp only at hst
              subst hst
              rfl
          · simp [processTrimmed, hc, hb, hst]
    rw [processLines_cons, hpl]
    exact ih st hst (fun x hx => h x (List.mem_cons_of_mem l hx))

/-- C6: for a file the parser processes to the end, the result is valid
exactly when a Type Application line was seen and both Name and Exec are
non-empty; and a file with no Desktop Entry section line parses to the
empty invalid entry without error. -/
theorem c6_validity :
    (∀ (lines : List (List Char)) (st : PState),
        processLines initPState lines = Except.ok st →
        ((parse_desktop_file lines).2 = true ↔
          (st.typeApp = true ∧ st.e.name ≠ [] ∧ st.e.exec ≠ []))) ∧
    (∀ lines : List (List Char),
        (∀ l ∈ lines, (trimC l).head? = some '[' →
            hasInfixC desktopEntrySection (trimC l) = false) →
        parse_desktop_file lines = (initEntry, false)) := by
  constructor
  · intro lines st h
    unfold parse_desktop_file
    rw [h]
    simp only [Bool.and_eq_true, Bool.not_eq_true', List.isEmpty_eq_false, ne_eq,
      List.isEmpty_iff]
    tauto
  · intro lines h
    unfold parse_desktop_file
    rw [processLines_no_section lines initPState rfl h]
    rfl

/-- Witness for C6 at concrete files discharging both hypotheses. -/
theorem c6_validity_witness :
    ((parse_desktop_file [] ).2 = true ↔
      (initPState.typeApp = true ∧ initPState.e.name ≠ [] ∧ initPState.e.exec ≠ [])) ∧
    parse_desktop_file ["x=1".toList] = (initEntry, false) :=
  ⟨c6_validity.1 [] initPState rfl, c6_validity.2 ["x=1".toList] (by decide)⟩

def c7Lines : List (List Char) :=
  ["[X][Desktop Entry]".toList, "Type=Application".toList, "Name=a".toList, "Exec=b".toList]

/-- C7 counterexample: the first line of this file opens a section whose
bracketed name is X, not Desktop Entry, yet because the line contains the
Desktop Entry header as a substring the following key value lines are
parsed: the Name line takes effect and the file parses as valid, which the
claim as stated rules out. -/
theorem c7_counterexample :
    (parse_desktop_file c7Lines).2 = true ∧
    (parse_desktop_file c7Lines).1.name = ['a'] := by
  refine ⟨by decide, by decide⟩

/-- C7 amended: a section line toggles key value parsing according to
whether it contains the Desktop Entry header as a substring (strstr), not
according to its bracketed name being exactly Desktop Entry; key value
lines are ignored while that flag is off. -/
theorem c7_section_substring :
    (∀ (st : PState) (line : List Char) (c : Char) (cs : List Char),
        trimC line = c :: cs → c = '[' →
        processLine st line =
          Except.ok { st with inDE := hasInfixC desktopEntrySection (c :: cs) }) ∧
    (∀ (st : PState) (line : List Char),
        st.inDE = false → (trimC line).head? ≠ some '[' →
        processLine st line = Except.ok st) := by
  constructor
  · intro st line c cs hl hc
    unfold processLine
    rw [hl]
    subst hc
    simp [processTrimmed, show ¬('[' : Char) = '#' by decide]
  · intro st line hst hhead
    unfold processLine
    cases hl : trimC line with
    | nil => rfl
    | cons c cs =>
      rw [hl] at hhead
      have hc : c ≠ '[' := by
        intro hcc
        exact hhead (by rw [hcc]; rfl)
      by_cases hh : c = '#'
      · simp [processTrimmed, hh]
      · simp [processTrimmed, hh, hc, hst]

/-- Witness for C7 amended at concrete inputs. -/
theorem c7_section_substring_witness :
    processLine initPState "[Other]".toList =
      Except.ok { initPState with
        inDE := hasInfixC desktopEntrySection ('[' :: "Other]".toList) } ∧
    processLine initPState "Name=a".toList = Except.ok initPState :=
  ⟨c7_section_substring.1 initPState "[Other]".toList '[' "Other]".toList (by decide) rfl,
   c7_section_substring.2 initPState "Name=a".toList rfl (by decide)⟩

/-- Digit accumulation of atoi: consume decimal digits, stop at the first
non-digit. -/
def digitsValAux : List Char → Nat → Nat
  | [], acc => acc
  | c :: rest, acc =>
    if c.isDigit then digitsValAux rest (acc * 10 + (c.toNat - 48)) else acc

/-- Embedding of atoi from stdlib as used by config_load: skip leading
whitespace, optional sign, then digits; no digits gives zero.  Overflow is
not modelled since every claim uses small values. -/
def atoiC (s : List Char) : Int :=
  match s.dropWhile isSpaceC with
  | '-' :: rest => - (digitsValAux rest 0 : Int)
  | '+' :: rest => (digitsValAux rest 0 : Int)
  | t => (digitsValAux t 0 : Int)

/-- Policy rule for one application, mirroring struct AppRule of config.h;
delay of minus one encodes the absent override. -/
structure AppRule where
  name : List Char
  allow : Int
  delay_ms : Int
deriving DecidableEq, Repr

/-- Policy rule for one directory, mirroring struct DirRule of config.h. -/
structure DirRule where
  path : List Char
  allow : Int
deriving DecidableEq, Repr

/-- Aggregate configuration, mirroring struct Config of config.h; the two
fixed arrays with their counts become lists whose length the load keeps
below the maxima MAX_CFG_APPS = 128 and MAX_CFG_DIRS = 32. -/
structure Config where
  startup_delay_ms : Int
  delay_ms : Int
  log_level : Int
  log_file : List Char
  apps : List AppRule
  dirs : List DirRule
deriving DecidableEq, Repr

/-- Embedding of config_init: everything zeroed except the inter item
delay of 200 milliseconds. -/
def config_init : Config :=
  { startup_delay_ms := 0, delay_ms := 200, log_level := 0, log_file := [],
    apps := [], dirs := [] }

/-- Key and value extraction of one config line, embedding the sscanf
format that reads at most 255 characters up to the equals sign, the equals
sign itself, and a non-empty value; any failed conversion skips the
line. -/
def sscanfKV (s : List Char) : Option (List Char × List Char) :=
  let k := s.takeWhile (fun c => c ≠ '=')
  if k = [] then none
  else if 255 < k.length then none
  else
    match s.drop k.length with
    | [] => none
    | _ :: rest =>
      let v := (rest.takeWhile (fun c => c ≠ '\n')).take 255
      if v = [] then none else some (k, v)

/-- Splitting on commas keeping empty pieces; composing with a filter of
the empty pieces below gives exactly the token stream strtok produces. -/
def splitComma : List Char → List (List Char)
  | [] => [[]]
  | c :: rest =>
    if c = ',' then [] :: splitComma rest
    else
      match splitComma rest with
      | [] => [[c]]
      | t :: ts => (c :: t) :: ts

/-- Effect of one strtok token on an app rule being built: a token whose
trim starts with allow: or delay: sets the corresponding field to atoi of
what follows the colon; every other token is ignored. -/
def applyToken (r : AppRule) (tok : List Char) : AppRule :=
  let t := trimC tok
  if hasPrefixC "allow:".toList t then { r with allow := atoiC (t.drop 6) }
  else if hasPrefixC "delay:".toList t then { r with delay_ms := atoiC (t.drop 6) }
  else r

/-- Construction of one app rule from a key and value of the apps section:
defaults allow one and delay minus one, then the comma separated tokens of
the value are applied in order. -/
def mkAppRule (k v : List Char) : AppRule :=
  ((splitComma v).filter (fun t => t ≠ [])).foldl applyToken
    { name := k.take 255, allow := 1, delay_ms := -1 }

/-- Construction of one dir rule from a key and value of the dirs section,
as written in config_load: the allow field is the result of the negated
strcmp against the literal block, so it is one exactly when the value IS
block. -/
def mkDirRule (k v : List Char) : DirRule :=
  { path := k.take 4095, allow := if v = "block".toList then 1 else 0 }

/-- One iteration of the fgets loop of config_load over the running
configuration and the current section name.  Section lines are read with
the sscanf set format that takes at most 63 characters up to the closing
bracket and leaves the section unchanged when the match is empty. -/
def configStep (acc : Config × List Char) (line : List Char) : Config × List Char :=
  let cfg := acc.1
  let sect := acc.2
  match trimC line with
  | [] => acc
  | c :: cs =>
    if c = '#' then acc
    else if c = '[' then
      let nm := (cs.takeWhile (fun x => x ≠ ']')).take 63
      (cfg, if nm = [] then sect else nm)
    else
      match sscanfKV (c :: cs) with
      | none => acc
      | some kv =>
        let k := trimC kv.1
        let v := trimC kv.2
        if sect = "general".toList then
          if k = "startup_delay".toList then ({ cfg with startup_delay_ms := atoiC v }, sect)
          else if k = "delay".toList then ({ cfg with delay_ms := atoiC v }, sect)
          else acc
        else if sect = "apps".toList ∧ cfg.apps.length < 128 then
          ({ cfg with apps := cfg.apps ++ [mkAppRule k v] }, sect)
        else if sect = "dirs".toList ∧ cfg.dirs.length < 32 then
          ({ cfg with dirs := cfg.dirs ++ [mkDirRule k v] }, sect)
        else acc

/-- Embedding of config_load on the list of lines of the policy file,
starting from the state config_init produces as main does. -/
def config_load (lines : List (List Char)) : Config :=
  (lines.foldl configStep (config_init, [])).1

/-- Embedding of config_find_app: first rule in insertion order whose name
matches exactly. -/
def config_find_app (cfg : Config) (name : List Char) : Option AppRule :=
  cfg.apps.find? (fun r => r.name == name)

/-- Embedding of config_dir_allowed: the stored flag of the first rule
whose path matches exactly, zero when no rule matches. -/
def config_dir_allowed (cfg : Config) (path : List Char) : Int :=
  match cfg.dirs.find? (fun d => d.path == path) with
  | some d => d.allow
  | none => 0

/-- Policy lookup inside scan_autostart_dir: scan the rules in order,
the first one whose name equals the entry name gives the allow value,
default one when no rule matches. -/
def appAllowed (cfg : Config) (name : List Char) : Int :=
  match cfg.apps.find? (fun r => r.name == name) with
  | some r => r.allow
  | none => 1

/-- Embedding of check_tryexec: an empty TryExec always passes; otherwise
the result of the external lookup of the executable on the search path,
supplied as an oracle. -/
def check_tryexec (tryexec : List Char) (foundInPath : Bool) : Bool :=
  if tryexec.length = 0 then true else foundInPath

/-- Whether scan_autostart_dir appends a parsed entry to the queue: the
entry must be valid, not hidden, not no-display, not disallowed by an app
rule, and pass the TryExec probe. -/
def queueDecision (cfg : Config) (e : DesktopEntry) (foundInPath : Bool) : Bool :=
  if e.valid = false then false
  else if e.hidden || e.nodisplay then false
  else if appAllowed cfg e.name = 0 then false
  else if check_tryexec e.tryexec foundInPath = false then false
  else true

/-- Pre-launch delay of the entry at a queue index, from launch_queued_apps:
the startup delay at index zero, the inter item delay otherwise.  The
computation reads nothing but the index and the two global fields. -/
def launchDelay (cfg : Config) (i : Nat) : Int :=
  if i = 0 then cfg.startup_delay_ms else cfg.delay_ms

/-- Embedding of the return value of run_command: zero (false) when the
command string is empty, otherwise the outcome of fork, supplied as an
oracle; the child side never returns to the caller. -/
def run_command (exec_cmd : List Char) (forkSucceeds : Bool) : Bool :=
  if exec_cmd = [] then false else forkSucceeds

def c1Lines : List (List Char) :=
  ["[dirs]".toList, "/opt/foo=block".toList, "/opt/bar=allow".toList]

/-- C1 evaluation at the failing input: config_load stores allow equal to
the negated strcmp against block, so the rule for the line whose value is
exactly block gets allow one and every other value gets allow zero, the
exact opposite of the claimed allow = (value not equal to block); the
lookup then returns that inverted flag. -/
theorem c1_dirs_block_eval :
    (config_load c1Lines).dirs =
      [{ path := "/opt/foo".toList, allow := 1 }, { path := "/opt/bar".toList, allow := 0 }] ∧
    config_dir_allowed (config_load c1Lines) "/opt/foo".toList = 1 ∧
    config_dir_allowed (config_load c1Lines) "/opt/bar".toList = 0 := by
  refine ⟨by decide, by decide, by decide⟩

def c2Lines : List (List Char) :=
  ["[general]".toList, "delay=200".toList, "startup_delay=0".toList,
   "[apps]".toList, "firefox=allow:1,delay:500".toList]

/-- C2 evaluation at the failing input: the rule for firefox stores the
delay override of 500 milliseconds, yet the sequencer delay at every
non-zero index is the global inter item delay of 200 milliseconds, because
launch_queued_apps computes the delay from the index and the two global
fields alone and never consults the rule. -/
theorem c2_delay_override_eval :
    config_find_app (config_load c2Lines) "firefox".toList =
      some { name := "firefox".toList, allow := 1, delay_ms := 500 } ∧
    launchDelay (config_load c2Lines) 0 = 0 ∧
    launchDelay (config_load c2Lines) 1 = 200 ∧
    (200 : Int) ≠ 500 := by
  refine ⟨by decide, by decide, by decide, by decide⟩

def c3Lines : List (List Char) := ["[apps]".toList, "firefox=allow:0".toList]

lemma hasPrefixC_append (p rest : List Char) : hasPrefixC p (p ++ rest) = true := by
  induction p with
  | nil => rfl
  | cons c cs ih => simp [hasPrefixC, ih]

/-- C3, universal part: a token made of the literal allow: followed by any
already trimmed tail sets the allow field of the rule under construction to
atoi of that tail, leaving the other fields alone. -/
lemma applyToken_allow (r : AppRule) (k : List Char)
    (h : trimC ("allow:".toList ++ k) = "allow:".toList ++ k) :
    applyToken r ("allow:".toList ++ k) = { r with allow := atoiC k } := by
  unfold applyToken
  rw [h]
  have hd : List.drop 6 ('a' :: 'l' :: 'l' :: 'o' :: 'w' :: ':' :: k) = k := by
    rw [show ('a' :: 'l' :: 'l' :: 'o' :: 'w' :: ':' :: k : List Char) =
        "allow:".toList ++ k from rfl,
      show (6 : Nat) = ("allow:".toList).length from rfl, List.drop_left]
  have hp : hasPrefixC ['a', 'l', 'l', 'o', 'w', ':']
      ('a' :: 'l' :: 'l' :: 'o' :: 'w' :: ':' :: k) = true := rfl
  simp [hp, hd]

/-- C3: an allow: sub-token sets the allow flag of the rule to the integer
that follows (numeric truth); and with the policy apps section containing
firefox=allow:0, any entry named firefox is excluded from the launch
queue whatever its other fields and whatever the TryExec probe returns. -/
theorem c3_allow_numeric :
    (∀ (r : AppRule) (k : List Char),
        trimC ("allow:".toList ++ k) = "allow:".toList ++ k →
        applyToken r ("allow:".toList ++ k) = { r with allow := atoiC k }) ∧
    (∀ (e : DesktopEntry) (foundInPath : Bool),
        e.name = "firefox".toList →
        queueDecision (config_load c3Lines) e foundInPath = false) := by
  constructor
  · exact applyToken_allow
  · intro e found hname
    unfold queueDecision
    rw [hname]
    have hall : appAllowed (config_load c3Lines) "firefox".toList = 0 := by decide
    rw [hall]
    by_cases hv : e.valid = false
    · rw [if_pos hv]
    · rw [if_neg hv]
      by_cases hh : (e.hidden || e.nodisplay) = true
      · rw [if_pos hh]
      · rw [if_neg hh, if_pos rfl]

/-- Witness for C3 at a concrete rule, token and entry. -/
theorem c3_allow_numeric_witness :
    applyToken { name := ['f'], allow := 1, delay_ms := -1 } ("allow:".toList ++ "0".toList) =
      { name := ['f'], allow := atoiC "0".toList, delay_ms := -1 } ∧
    queueDecision (config_load c3Lines)
      { initEntry with name := "firefox".toList, valid := true } true = false :=
  ⟨c3_allow_numeric.1 { name := ['f'], allow := 1, delay_ms := -1 } "0".toList (by decide),
   c3_allow_numeric.2 { initEntry with name := "firefox".toList, valid := true } true rfl⟩

/-- Comparison loader for C8, identical to configStep except that the two
capacity tests of config_load are removed, so every apps and dirs rule is
stored.  The real loader is proved below to store exactly the first
MAX_CFG_APPS and MAX_CFG_DIRS rules this one collects. -/
def configStepU (acc : Config × List Char) (line : List Char) : Config × List Char :=
  let cfg := acc.1
  let sect := acc.2
  match trimC line with
  | [] => acc
  | c :: cs =>
    if c = '#' then acc
    else if c = '[' then
      let nm := (cs.takeWhile (fun x => x ≠ ']')).take 63
      (cfg, if nm = [] then sect else nm)
    else
      match sscanfKV (c :: cs) with
      | none => acc
      | some kv =>
        let k := trimC kv.1
        let v := trimC kv.2
        if sect = "general".toList then
          if k = "startup_delay".toList then ({ cfg with startup_delay_ms := atoiC v }, sect)
          else if k = "delay".toList then ({ cfg with delay_ms := atoiC v }, sect)
          else acc
        else if sect = "apps".toList then
          ({ cfg with apps := cfg.apps ++ [mkAppRule k v] }, sect)
        else if sect = "dirs".toList then
          ({ cfg with dirs := cfg.dirs ++ [mkDirRule k v] }, sect)
        else acc

/-- Uncapped variant of config_load used as the comparison point of C8. -/
def config_loadU (lines : List (List Char)) : Config :=
  (lines.foldl configStepU (config_init, [])).1

lemma configStep_rel (cfg ucfg : Config) (sect l : List Char)
    (h1 : cfg.apps = ucfg.apps.take 128) (h2 : cfg.dirs = ucfg.dirs.take 32) :
    (configStep (cfg, sect) l).2 = (configStepU (ucfg, sect) l).2 ∧
    (configStep (cfg, sect) l).1.apps = (configStepU (ucfg, sect) l).1.apps.take 128 ∧
    (configStep (cfg, sect) l).1.dirs = (configStepU (ucfg, sect) l).1.dirs.take 32 := by
  unfold configStep configStepU
  cases ht : trimC l with
  | nil => exact ⟨by trivial, h1, h2⟩
  | cons c cs =>
    by_cases hc : c = '#'
    · simp only [hc, if_pos rfl]
      exact ⟨by trivial, h1, h2⟩
    · by_cases hb : c = '['
      · simp only [if_neg hc, hb, if_pos rfl]
        exact ⟨by trivial, h1, h2⟩
      · simp only [if_neg hc, if_neg hb]
        cases hkv : sscanfKV (c :: cs) with
        | none => exact ⟨by trivial, h1, h2⟩
        | some kv =>
          simp only []
          by_cases hg : sect = "general".toList
          · by_cases hk1 : trimC kv.1 = "startup_delay".toList
            · simp only [if_pos hg, if_pos hk1]
              exact ⟨by trivial, h1, h2⟩
            · by_cases hk2 : trimC kv.1 = "delay".toList
              · simp only [if_pos hg, if_neg hk1, if_pos hk2]
                exact ⟨by trivial, h1, h2⟩
              · simp only [if_pos hg, if_neg hk1, if_neg hk2]
                exact ⟨by trivial, h1, h2⟩
          · by_cases ha : sect = "apps".toList
            · by_cases hlen : ucfg.apps.length < 128
              · have hclen : cfg.apps.length < 128 := by
                  rw [h1, List.length_take]
                  omega
                simp only [if_neg hg, if_pos (And.intro ha hclen), if_pos ha]
                refine ⟨by trivial, ?_, h2⟩
                have : (ucfg.apps ++ [mkAppRule (trimC kv.1) (trimC kv.2)]).take 128 =
                    ucfg.apps ++ [mkAppRule (trimC kv.1) (trimC kv.2)] := by
                  apply List.take_of_length_le
                  rw [List.length_append]
                  simp
                  omega
                rw [this, h1, List.take_of_length_le (by omega)]
              · have hclen : ¬cfg.apps.length < 128 := by
                  rw [h1, List.length_take]
                  omega
                have hnd : sect ≠ "dirs".toList := by
                  rw [ha]; decide
                simp only [if_neg hg, if_pos ha,
                  if_neg (fun hand => hclen (And.right hand)),
                  if_neg (fun hand : sect = "dirs".toList ∧ cfg.dirs.length < 32 =>
                    hnd (And.left hand))]
                refine ⟨by trivial, ?_, h2⟩
                rw [List.take_append_of_le_length (by omega), h1]
            · by_cases hd : sect = "dirs".toList
              · by_cases hlen : ucfg.dirs.length < 32
                · have hclen : cfg.dirs.length < 32 := by
                    rw [h2, List.length_take]
                    omega
                  simp only [if_neg hg, if_neg ha,
                    if_neg (fun hand : sect = "apps".toList ∧ cfg.apps.length < 128 =>
                      ha (And.left hand)),
                    if_pos (And.intro hd hclen), if_pos hd]
                  refine ⟨by trivial, h1, ?_⟩
                  have : (ucfg.dirs ++ [mkDirRule (trimC kv.1) (trimC kv.2)]).take 32 =
                      ucfg.dirs ++ [mkDirRule (trimC kv.1) (trimC kv.2)] := by
                    apply List.take_of_length_le
                    rw [List.length_append]
                    simp
                    omega
                  rw [this, h2, List.take_of_length_le (by omega)]
                · have hclen : ¬cfg.dirs.length < 32 := by
                    rw [h2, List.length_take]
                    omega
                  simp only [if_neg hg, if_neg ha,
                    if_neg (fun hand : sect = "apps".toList ∧ cfg.apps.length < 128 =>
                      ha (And.left hand)),
                    if_neg (fun hand => hclen (And.right hand)), if_pos hd]
                  refine ⟨by trivial, h1, ?_⟩
                  rw [List.take_append_of_le_length (by omega), h2]
              · simp only [if_neg hg, if_neg ha,
                  if_neg (fun hand : sect = "apps".toList ∧ cfg.apps.length < 128 =>
                    ha (And.left hand)),
                  if_neg (fun hand : sect = "dirs".toList ∧ cfg.dirs.length < 32 =>
                    hd (And.left hand)), if_neg hd]
                exact ⟨by trivial, h1, h2⟩

lemma config_fold_rel (lines : List (List Char)) :
    ∀ (cfg ucfg : Config) (sect : List Char),
    cfg.apps = ucfg.apps.take 128 → cfg.dirs = ucfg.dirs.take 32 →
    (lines.foldl configStep (cfg, sect)).1.apps =
      (lines.foldl configStepU (ucfg, sect)).1.apps.take 128 ∧
    (lines.foldl configStep (cfg, sect)).1.dirs =
      (lines.foldl configStepU (ucfg, sect)).1.dirs.take 32 := by
  induction lines with
  | nil => intro cfg ucfg sect h1 h2; exact ⟨h1, h2⟩
  | cons l ls ih =>
    intro cfg ucfg sect h1 h2
    obtain ⟨hs, ha, hd⟩ := configStep_rel cfg ucfg sect l h1 h2
    simp only [List.foldl_cons]
    have e1 : configStep (cfg, sect) l =
        ((configStep (cfg, sect) l).1, (configStep (cfg, sect) l).2) := rfl
    have e2 : configStepU (ucfg, sect) l =
        ((configStepU (ucfg, sect) l).1, (configStepU (ucfg, sect) l).2) := rfl
    rw [e1, e2, hs]
    exact ih _ _ _ ha hd

/-- C8: the loader stores exactly the first MAX_CFG_APPS app rules and the
first MAX_CFG_DIRS dir rules the policy file defines, silently dropping
the rest, so the stored counts never exceed 128 and 32; and find_app is
absent for every name that no stored rule carries (in particular for a
rule that was dropped at the cap and whose name appears nowhere among the
stored ones). -/
theorem c8_capacity :
    ∀ lines : List (List Char),
    (config_load lines).apps = (config_loadU lines).apps.take 128 ∧
    (config_load lines).dirs = (config_loadU lines).dirs.take 32 ∧
    (config_load lines).apps.length ≤ 128 ∧
    (config_load lines).dirs.length ≤ 32 ∧
    (∀ n : List Char, (∀ r ∈ (config_load lines).apps, r.name ≠ n) →
        config_find_app (config_load lines) n = none) := by
  intro lines
  obtain ⟨ha, hd⟩ := config_fold_rel lines config_init config_init [] rfl rfl
  have ha' : (config_load lines).apps = (config_loadU lines).apps.take 128 := ha
  have hd' : (config_load lines).dirs = (config_loadU lines).dirs.take 32 := hd
  refine ⟨ha', hd', ?_, ?_, ?_⟩
  · rw [ha', List.length_take]; omega
  · rw [hd', List.length_take]; omega
  · intro n h
    unfold config_find_app
    apply List.find?_eq_none.mpr
    intro r hr
    simp only [beq_iff_eq]
    exact h r hr

def c8Lines : List (List Char) :=
  ["[apps]".toList, "alpha=allow:1".toList, "beta=allow:0".toList]

/-- Witness for C8 at a concrete policy and name discharging the
membership hypothesis. -/
theorem c8_capacity_witness :
    (config_load c8Lines).apps.length ≤ 128 ∧
    config_find_app (config_load c8Lines) "gamma".toList = none :=
  ⟨(c8_capacity c8Lines).2.2.1,
   (c8_capacity c8Lines).2.2.2.2 "gamma".toList (by decide)⟩

/-- The sequencer loop of launch_queued_apps: the list of run_command
results for the queued exec strings in queue order, the fork outcome at
each index supplied by an oracle. -/
def launchFrom (forkOk : Nat → Bool) : Nat → List (List Char) → List Bool
  | _, [] => []
  | i, e :: rest => run_command e (forkOk i) :: launchFrom forkOk (i + 1) rest

/-- The success counter of launch_queued_apps. -/
def successCount (queue : List (List Char)) (forkOk : Nat → Bool) : Nat :=
  (launchFrom forkOk 0 queue).count true

/-- The failure count launch_queued_apps reports: total minus successes. -/
def failedCount (queue : List (List Char)) (forkOk : Nat → Bool) : Nat :=
  queue.length - successCount queue forkOk

lemma launchFrom_eq_zipWith (forkOk : Nat → Bool) :
    ∀ (queue : List (List Char)) (s : Nat),
    launchFrom forkOk s queue =
      List.zipWith (fun e i => run_command e (forkOk i)) queue (List.range' s queue.length) := by
  intro queue
  induction queue with
  | nil => intro s; rfl
  | cons e rest ih =>
    intro s
    simp only [launchFrom, List.length_cons, List.range'_succ, List.zipWith_cons_cons]
    rw [ih (s + 1)]

lemma launchFrom_length (forkOk : Nat → Bool) :
    ∀ (queue : List (List Char)) (s : Nat), (launchFrom forkOk s queue).length = queue.length := by
  intro queue
  induction queue with
  | nil => intro s; rfl
  | cons e rest ih => intro s; simp [launchFrom, ih]

/-- C9: the sequencer produces one outcome per queued entry, in queue
order (the result list is exactly run_command of each entry zipped with
its index), an empty command is a failure, and the reported success and
failure counts always sum to the queue length. -/
theorem c9_counts :
    ∀ (queue : List (List Char)) (forkOk : Nat → Bool),
    (launchFrom forkOk 0 queue).length = queue.length ∧
    launchFrom forkOk 0 queue =
      List.zipWith (fun e i => run_command e (forkOk i)) queue (List.range' 0 queue.length) ∧
    successCount queue forkOk + failedCount queue forkOk = queue.length ∧
    (∀ b : Bool, run_command [] b = false) := by
  intro queue forkOk
  refine ⟨launchFrom_length forkOk queue 0, launchFrom_eq_zipWith forkOk queue 0, ?_, fun b => rfl⟩
  have hle : successCount queue forkOk ≤ queue.length := by
    unfold successCount
    calc (launchFrom forkOk 0 queue).count true ≤ (launchFrom forkOk 0 queue).length :=
          List.count_le_length true (launchFrom forkOk 0 queue)
    _ = queue.length := launchFrom_length forkOk queue 0
  unfold failedCount
  exact Nat.add_sub_cancel' hle

/-- C10: the output of the sanitizer never contains a percent sign, and
consequently the sanitizer is idempotent. -/
theorem c10_sanitizer_idempotent :
    (∀ s : List Char, '%' ∉ remove_desktop_specifiers s) ∧
    (∀ s : List Char,
        remove_desktop_specifiers (remove_desktop_specifiers s) = remove_desktop_specifiers s) := by
  refine ⟨rds_no_percent, fun s => rds_fixed_of_no_percent _ (rds_no_percent s)⟩

end Autostart
